import Mathlib

/-!
Verification of the `dbgen` data-generation core against its source.

The definitions below are a shallow embedding of `src/value.rs` and
`src/cli.rs`.  Machine integers are modelled as `Int`/`Nat` with explicit
wrapping or range checks where the Rust code wraps or checks; `f64` values
are modelled by an abstract type parameter `F` together with the floating
point operations the code applies to them (the claims under verification
never depend on floating point semantics, only on which float operation is
applied to which projections).
-/

namespace Dbgen

/-! ## I65: the 65-bit signed integer of `value.rs`

Rust: `struct I65 { lsbit: bool, msb: i64 }`.  The field `msb` is an `i64`;
we model it as an `Int` and carry the 64-bit range as the predicate `Wf`.
-/

structure I65 where
  lsbit : Bool
  msb : Int
deriving DecidableEq, Repr

/-- Rust `impl From<I65> for i128`: `i128::from(msb) << 1 | i128::from(lsbit)`.
Since `msb << 1` has low bit zero, the bitwise `or` is addition. -/
def I65.toInt128 (x : I65) : Int :=
  2 * x.msb + (if x.lsbit then 1 else 0)

/-- Well-formedness: `msb` fits in an `i64`. -/
def I65.Wf (x : I65) : Prop :=
  -(2 ^ 63) ≤ x.msb ∧ x.msb < 2 ^ 63

instance (x : I65) : Decidable x.Wf :=
  inferInstanceAs (Decidable (_ ∧ _))

/-- Two's-complement wrap of an unbounded integer into the `i64` range. -/
def wrap64 (x : Int) : Int :=
  (x + 2 ^ 63) % 2 ^ 64 - 2 ^ 63

/-- Two's-complement wrap into the 65-bit range `[-2^64, 2^64)`. -/
def wrap65 (x : Int) : Int :=
  (x + 2 ^ 64) % 2 ^ 65 - 2 ^ 64

/-- Rust `I65::wrapping_neg`:
`Self { lsbit, msb: i64::from(lsbit).wrapping_add(msb).wrapping_neg() }`. -/
def I65.wrappingNeg (x : I65) : I65 :=
  { lsbit := x.lsbit
    msb := wrap64 (-(wrap64 ((if x.lsbit then 1 else 0) + x.msb))) }

/-- Rust `I65::try_from_i128`: `lsbit = (v & 1) != 0`, `msb = (v >> 1).to_i64()?`.
`v >> 1` on `i128` is an arithmetic shift, i.e. flooring division by 2,
which Lean's `Int` euclidean `/` agrees with for the positive divisor 2;
`to_i64` fails exactly when the shifted value is outside the `i64` range. -/
def I65.tryFromI128 (v : Int) : Option I65 :=
  if -(2 ^ 63) ≤ v / 2 ∧ v / 2 < 2 ^ 63 then
    some { lsbit := decide (v % 2 = 1), msb := v / 2 }
  else
    none

/-- The 65-bit representable range `[-2^64, 2^64)`. -/
def inRange65 (v : Int) : Prop :=
  -(2 ^ 64) ≤ v ∧ v < 2 ^ 64

instance (v : Int) : Decidable (inRange65 v) :=
  inferInstanceAs (Decidable (_ ∧ _))

/-- `i128::checked_*` narrowing: the exact result if it fits in `i128`. -/
def checkedI128 (v : Int) : Option Int :=
  if -(2 ^ 127) ≤ v ∧ v < 2 ^ 127 then some v else none

/-- Rust `i128::checked_add`. -/
def checkedAdd (a b : Int) : Option Int := checkedI128 (a + b)

/-- Rust `i128::checked_sub`. -/
def checkedSub (a b : Int) : Option Int := checkedI128 (a - b)

/-- Rust `i128::checked_mul`. -/
def checkedMul (a b : Int) : Option Int := checkedI128 (a * b)

/-! ## Number

Rust: `enum N { Int(I65), Float(f64) }` wrapped in `pub struct Number(N)`.
The float payload is the abstract type `F`.
-/

inductive N (F : Type) where
  | int (v : I65)
  | float (x : F)
deriving DecidableEq

/-- Rust `impl From<N> for f64` (via `impl From<I65> for f64`); the
projection of an `I65` into `f64` is the abstract `i65f`. -/
def N.toFloat {F : Type} (i65f : I65 → F) : N F → F
  | .int v => i65f v
  | .float x => x

def N.isInt {F : Type} : N F → Bool
  | .int _ => true
  | .float _ => false

/-- Rust macro `impl_number_bin_op`: for two `Int` operands apply the
`i128` checked operation and re-encode via `I65::try_from_i128`; on any
failure, and for any operand that is a float, fall back to the float
operation applied to the `f64` projections of both operands. -/
def numberBinOp {F : Type} (i65f : I65 → F) (fop : F → F → F)
    (checked : Int → Int → Option Int) : N F → N F → N F
  | .int x, .int y =>
    match (checked x.toInt128 y.toInt128).bind I65.tryFromI128 with
    | some c => .int c
    | none => .float (fop ((N.int x).toFloat i65f) ((N.int y).toFloat i65f))
  | a, b => .float (fop (a.toFloat i65f) (b.toFloat i65f))

/-- Rust `impl Add for Number`. -/
def numberAdd {F : Type} (i65f : I65 → F) (fadd : F → F → F) : N F → N F → N F :=
  numberBinOp i65f fadd checkedAdd

/-- Rust `impl Sub for Number`. -/
def numberSub {F : Type} (i65f : I65 → F) (fsub : F → F → F) : N F → N F → N F :=
  numberBinOp i65f fsub checkedSub

/-- Rust `impl Mul for Number`. -/
def numberMul {F : Type} (i65f : I65 → F) (fmul : F → F → F) : N F → N F → N F :=
  numberBinOp i65f fmul checkedMul

/-- Rust `impl Neg for Number`: `Int` negates by `I65::wrapping_neg`,
floats by the float negation `fneg`. -/
def numberNeg {F : Type} (fneg : F → F) : N F → N F
  | .int v => .int v.wrappingNeg
  | .float x => .float (fneg x)

/-- Rust `Number::to::<i128>()`: an `Int` converts through
`i128::from(I65)` (then `i128::from_i128`, the identity); a float converts
through the abstract `f64`-to-`i128` conversion `fto`. -/
def numberToI128 {F : Type} (fto : F → Option Int) : N F → Option Int
  | .int v => some v.toInt128
  | .float x => fto x

/-- Rust `impl From<u64> for Number` (macro `impl_from_int_for_number`):
`lsbit = (value & 1) != 0`, `msb = (value >> 1) as i64`.  The shift on an
unsigned value is division by 2 on `Nat`. -/
def i65OfU64 (n : Nat) : I65 :=
  { lsbit := decide (n % 2 = 1), msb := (n / 2 : Nat) }

/-- Rust `impl From<i64> for Number`: same macro; `value >> 1` is an
arithmetic shift on `i64`, i.e. flooring division by 2. -/
def i65OfI64 (n : Int) : I65 :=
  { lsbit := decide (n % 2 = 1), msb := n / 2 }

/-! ## Value

Rust: `enum V { Null, Number(Number), String(String), Bytes(Vec<u8>) }`
wrapped in `pub struct Value(V)`.  Strings are modelled by their UTF-8
byte sequences (`s.as_bytes()` is what every covered operation reads),
bytes by raw byte lists.
-/

inductive Value (F : Type) where
  | null
  | num (n : N F)
  | str (s : List Nat)
  | bytes (b : List Nat)
deriving DecidableEq

def Value.isStr {F : Type} : Value F → Bool
  | .str _ => true
  | _ => false

def Value.isBytes {F : Type} : Value F → Bool
  | .bytes _ => true
  | _ => false

/-- Decimal rendering of an `i128` (`impl Display` via `i128::fmt`). -/
def intDisplayBytes (v : Int) : List Nat :=
  (if v < 0 then [45] else []) ++ (Nat.toDigits 10 v.natAbs).map Char.toNat

/-- Rust `impl Display for Number`: `Int` renders as the `i128` decimal,
floats through the abstract float formatter `fshow`. -/
def numberDisplay {F : Type} (fshow : F → List Nat) : N F → List Nat
  | .int v => intDisplayBytes v.toInt128
  | .float x => fshow x

/-- The string-escaping loop of `Value::write_sql`: every `'` byte (39)
is doubled, every other byte is copied unchanged. -/
def sqlEscapeBytes (s : List Nat) : List Nat :=
  s.flatMap fun b => if b = 39 then [39, 39] else [b]

/-- Uppercase hex digit (ASCII code) of a value below 16, per `{:02X}`. -/
def hexDigitU (d : Nat) : Nat :=
  if d < 10 then 48 + d else 55 + d

/-- The two uppercase hex digits of one byte, per `write!(_, "{:02X}", b)`. -/
def hexByte (b : Nat) : List Nat :=
  [hexDigitU (b / 16), hexDigitU (b % 16)]

/-- Value of an uppercase hex-digit byte (inverse of `hexDigitU`). -/
def unhexU (d : Nat) : Nat :=
  if d ≤ 57 then d - 48 else d - 55

/-- Decoding of a two-digit uppercase hex pair back into a byte. -/
def hexDecodePair : List Nat → Nat
  | [h, l] => unhexU h * 16 + unhexU l
  | _ => 0

/-- A byte is an uppercase hexadecimal digit (`0`-`9` or `A`-`F`). -/
def isUpperHexByte (d : Nat) : Prop :=
  (48 ≤ d ∧ d ≤ 57) ∨ (65 ≤ d ∧ d ≤ 70)

instance (d : Nat) : Decidable (isUpperHexByte d) :=
  inferInstanceAs (Decidable (_ ∨ _))

/-- Rust `Value::write_sql`, as the byte sequence written to the stream.
`NULL` is `[78, 85, 76, 76]`; `'` is byte 39; `x` is byte 120. -/
def writeSql {F : Type} (fshow : F → List Nat) : Value F → List Nat
  | .null => [78, 85, 76, 76]
  | .num n => numberDisplay fshow n
  | .str s => 39 :: sqlEscapeBytes s ++ [39]
  | .bytes bs => 120 :: 39 :: bs.flatMap hexByte ++ [39]

/-! ## Comparison (`Value::sql_cmp`) -/

/-- Rust derived `Ord` on `bool`: `false < true`. -/
def cmpBool : Bool → Bool → Ordering
  | false, true => .lt
  | true, false => .gt
  | _, _ => .eq

def cmpInt (a b : Int) : Ordering :=
  if a < b then .lt else if a = b then .eq else .gt

def cmpNat (a b : Nat) : Ordering :=
  if a < b then .lt else if a = b then .eq else .gt

/-- Rust derived `PartialOrd`/`Ord` on `I65`: lexicographic on the fields
in declaration order, `lsbit` first, then `msb`. -/
def i65Cmp (a b : I65) : Ordering :=
  match cmpBool a.lsbit b.lsbit with
  | .eq => cmpInt a.msb b.msb
  | o => o

/-- Rust `impl PartialOrd for Number`: `Int`/`Int` uses the derived `I65`
order (total, hence `some`); any other combination compares the `f64`
projections with the abstract partial float comparison `fcmp`. -/
def numberCmpOpt {F : Type} (i65f : I65 → F) (fcmp : F → F → Option Ordering) :
    N F → N F → Option Ordering
  | .int a, .int b => some (i65Cmp a b)
  | a, b => fcmp (a.toFloat i65f) (b.toFloat i65f)

/-- Lexicographic byte-sequence comparison: Rust's `Ord` on `&[u8]`,
`Vec<u8>` and (byte-wise) on `str`/`String`. -/
def compareBytes : List Nat → List Nat → Ordering
  | [], [] => .eq
  | [], _ :: _ => .lt
  | _ :: _, [] => .gt
  | a :: as', b :: bs' =>
    match cmpNat a b with
    | .eq => compareBytes as' bs'
    | o => o

/-- The error type produced by `Value::sql_cmp`
(`ErrorKind::InvalidArguments { name, cause }`); the `Function` tag is
modelled as a string. -/
inductive SqlErr where
  | invalidArguments (name : String) (cause : String)
deriving DecidableEq

/-- Rust `Value::sql_cmp`, arm for arm. -/
def sqlCmp {F : Type} (i65f : I65 → F) (fcmp : F → F → Option Ordering)
    (a b : Value F) (name : String) : Except SqlErr (Option Ordering) :=
  match a, b with
  | .null, _ => .ok none
  | _, .null => .ok none
  | .num x, .num y => .ok (numberCmpOpt i65f fcmp x y)
  | .str x, .str y => .ok (some (compareBytes x y))
  | .str x, .bytes y => .ok (some (compareBytes x y))
  | .bytes x, .str y => .ok (some (compareBytes x y))
  | .bytes x, .bytes y => .ok (some (compareBytes x y))
  | _, _ => .error (.invalidArguments name "comparing values of different types")

/-! ## UTF-8 validity and `try_sql_concat` -/

/-- UTF-8 continuation byte. -/
def utf8Cont (b : Nat) : Bool :=
  128 ≤ b && b ≤ 191

/-- Validity of a byte sequence as UTF-8, per RFC 3629 (the check done by
Rust's `String::from_utf8`): rejects overlong encodings, surrogates and
code points above U+10FFFF. -/
def validUtf8 : List Nat → Bool
  | [] => true
  | b :: rest =>
    if b ≤ 127 then validUtf8 rest
    else if 194 ≤ b && b ≤ 223 then
      match rest with
      | c1 :: r => utf8Cont c1 && validUtf8 r
      | [] => false
    else if b = 224 then
      match rest with
      | c1 :: c2 :: r => (160 ≤ c1 && c1 ≤ 191) && utf8Cont c2 && validUtf8 r
      | _ => false
    else if 225 ≤ b && b ≤ 236 then
      match rest with
      | c1 :: c2 :: r => utf8Cont c1 && utf8Cont c2 && validUtf8 r
      | _ => false
    else if b = 237 then
      match rest with
      | c1 :: c2 :: r => (128 ≤ c1 && c1 ≤ 159) && utf8Cont c2 && validUtf8 r
      | _ => false
    else if 238 ≤ b && b ≤ 239 then
      match rest with
      | c1 :: c2 :: r => utf8Cont c1 && utf8Cont c2 && validUtf8 r
      | _ => false
    else if b = 240 then
      match rest with
      | c1 :: c2 :: c3 :: r =>
        (144 ≤ c1 && c1 ≤ 191) && utf8Cont c2 && utf8Cont c3 && validUtf8 r
      | _ => false
    else if 241 ≤ b && b ≤ 243 then
      match rest with
      | c1 :: c2 :: c3 :: r =>
        utf8Cont c1 && utf8Cont c2 && utf8Cont c3 && validUtf8 r
      | _ => false
    else if b = 244 then
      match rest with
      | c1 :: c2 :: c3 :: r =>
        (128 ≤ c1 && c1 ≤ 143) && utf8Cont c2 && utf8Cont c3 && validUtf8 r
      | _ => false
    else false

/-- Rust `impl From<Vec<u8>> for Value`: `String::from_utf8` upgrades to
`String` exactly when the bytes are valid UTF-8, otherwise the original
bytes become `Bytes`. -/
def byteValueOf {F : Type} (b : List Nat) : Value F :=
  if validUtf8 b then .str b else .bytes b

/-- The loop of `Value::try_sql_concat`: `res` is the output buffer,
`isUtf8` the `is_utf8` flag (initialized `false`, set to `false` again on
a `Bytes` input, and never set to `true`). -/
def trySqlConcatAux {F : Type} (fshow : F → List Nat) :
    List (Except Unit (Value F)) → List Nat → Bool → Except Unit (Value F)
  | [], res, isUtf8 =>
    .ok (if isUtf8 then .str res else byteValueOf res)
  | .error e :: _, _, _ => .error e
  | .ok .null :: _, _, _ => .ok .null
  | .ok (.num n) :: rest, res, isUtf8 =>
    trySqlConcatAux fshow rest (res ++ numberDisplay fshow n) isUtf8
  | .ok (.str s) :: rest, res, isUtf8 =>
    trySqlConcatAux fshow rest (res ++ s) isUtf8
  | .ok (.bytes b) :: rest, res, _ =>
    trySqlConcatAux fshow rest (res ++ b) false

/-- Rust `Value::try_sql_concat` over an iterator of fallible values. -/
def trySqlConcat {F : Type} (fshow : F → List Nat)
    (values : List (Except Unit (Value F))) : Except Unit (Value F) :=
  trySqlConcatAux fshow values [] false

/-- The bytes one non-null value contributes to the concat buffer. -/
def valueConcatBytes {F : Type} (fshow : F → List Nat) : Value F → List Nat
  | .null => []
  | .num n => numberDisplay fshow n
  | .str s => s
  | .bytes b => b

/-! ## Seed parsing (`cli.rs`, `seed_from_str`)

The Rust code decodes with `data_encoding::HEXLOWER_PERMISSIVE`:
`decode_len` rejects odd lengths with a `Length` error, the explicit
comparison against `seed.len() = 32` rejects any other length with a
`Length` error, and `decode_mut` rejects non-hex symbols with a `Symbol`
error.  The permissive alphabet accepts both lowercase and uppercase
hexadecimal digits.
-/

inductive DecodeKind where
  | length
  | symbol
deriving DecidableEq, Repr

/-- A character the `HEXLOWER_PERMISSIVE` alphabet accepts:
`0`-`9`, `a`-`f` or `A`-`F`. -/
def isHexDigitPermissive (c : Char) : Bool :=
  (48 ≤ c.toNat && c.toNat ≤ 57) ||
    (97 ≤ c.toNat && c.toNat ≤ 102) ||
    (65 ≤ c.toNat && c.toNat ≤ 70)

/-- Numeric value of a permissive hex digit. -/
def hexCharVal (c : Char) : Nat :=
  if c.toNat ≤ 57 then c.toNat - 48
  else if c.toNat ≤ 70 then c.toNat - 55
  else c.toNat - 87

/-- Byte decoding of consecutive hex-digit pairs. -/
def hexPairsDecode : List Char → List Nat
  | c1 :: c2 :: rest => (hexCharVal c1 * 16 + hexCharVal c2) :: hexPairsDecode rest
  | _ => []

/-- Rust `seed_from_str`, over the character sequence of the input. -/
def seedFromStr (s : List Char) : Except DecodeKind (List Nat) :=
  if s.length % 2 ≠ 0 then .error .length
  else if s.length / 2 ≠ 32 then .error .length
  else if s.all isHexDigitPermissive then .ok (hexPairsDecode s)
  else .error .symbol

/-- Lowercase-only hex digit, the alphabet the spec sentence names. -/
def isLowerHexChar (c : Char) : Bool :=
  (48 ≤ c.toNat && c.toNat ≤ 57) || (97 ≤ c.toNat && c.toNat ≤ 102)

/-! ## Shard row counting (`cli.rs`, `run` and `Env::write_data_file`)

`Env::write_data_file` loops `i` over `0..info.inserts_count`; the insert
at index `i` writes `last_insert_rows_count` rows when `i` is the final
index and `Env::rows_count` rows otherwise, then adds that same count to
`WRITE_PROGRESS`.  `run` builds one `FileInfo` per file: every file but
the last gets `(inserts_count, rows_count)`, the last file gets
`(last_file_inserts_count, last_insert_rows_count)`.
-/

structure FileInfo where
  fileIndex : Nat
  insertsCount : Nat
  lastInsertRowsCount : Nat
deriving DecidableEq, Repr

/-- Rows of the `INSERT` statement at index `i` of a shard
(`write_data_file` line: `if i == info.inserts_count - 1 { ... }`). -/
def insertRows (envRowsCount : Nat) (info : FileInfo) (i : Nat) : Nat :=
  if i = info.insertsCount - 1 then info.lastInsertRowsCount else envRowsCount

/-- Main rows written by one shard: one `write_row` call per row of each
`INSERT` statement. -/
def shardMainRows (envRowsCount : Nat) (info : FileInfo) : Nat :=
  ((List.range info.insertsCount).map (insertRows envRowsCount info)).sum

/-- The additions a shard performs on `WRITE_PROGRESS`
(`WRITE_PROGRESS.fetch_add(rows_count.into())` once per insert), starting
from counter value `start`.  `WRITE_PROGRESS` is an `AtomicU64`, so each
`fetch_add` wraps modulo `2^64`. -/
def shardProgress (envRowsCount : Nat) (info : FileInfo) (start : Nat) : Nat :=
  (List.range info.insertsCount).foldl
    (fun acc i => (acc + insertRows envRowsCount info i) % 2 ^ 64) start

/-- The list of `FileInfo` built by `run` (the `iv` vector): file indices
are 1-based, and the iteration replaces `inserts_count`/`rows_count` by
the last-file values exactly when `file_index == files_count`. -/
def shardInfos (filesCount insertsCount rowsCount lastFileInsertsCount
    lastInsertRowsCount : Nat) : List FileInfo :=
  (List.range filesCount).map fun i =>
    if i + 1 = filesCount then
      { fileIndex := i + 1
        insertsCount := lastFileInsertsCount
        lastInsertRowsCount := lastInsertRowsCount }
    else
      { fileIndex := i + 1
        insertsCount := insertsCount
        lastInsertRowsCount := rowsCount }

/-- Total main rows written across all shards of a run. -/
def totalMainRows (filesCount insertsCount rowsCount lastFileInsertsCount
    lastInsertRowsCount : Nat) : Nat :=
  ((shardInfos filesCount insertsCount rowsCount lastFileInsertsCount
      lastInsertRowsCount).map (shardMainRows rowsCount)).sum

/-- Value of the `u64` counter `WRITE_PROGRESS` after all shards complete
(the counter starts at 0 and every shard adds its per-insert row counts
with `2^64`-wrapping `fetch_add`s). -/
def finalWriteProgress (filesCount insertsCount rowsCount lastFileInsertsCount
    lastInsertRowsCount : Nat) : Nat :=
  (shardInfos filesCount insertsCount rowsCount lastFileInsertsCount
      lastInsertRowsCount).foldl
    (fun acc info => shardProgress rowsCount info acc) 0

/-! ## The shard writer (`cli.rs`, `FileWriterEnv`)

Row expressions and derived-count expressions are external collaborators
(`eval.rs` is outside the core); they are modelled as abstract stateful
functions over an evaluator-state type `σ`, returning `none` on
evaluation failure (including the non-integer row-count failure of the
`count.try_into()` conversion).  Emitted formatter calls are recorded as
a list of `(table index, event)` pairs; each table index names the output
file of that table, mirroring `self.files[i]`.
-/

inductive OutEvent (Val : Type) where
  | header
  | rowSep
  | valueSep
  | value (v : Val)
  | trailer
deriving DecidableEq

/-- One compiled table, as the shard writer sees it: `row` is
`Table::row.eval`, `derived` the `(child index, count expression)` list. -/
structure TableModel (σ Val : Type) where
  rowEval : σ → Option (List Val × σ)
  derived : List (Nat × (σ → Option (Nat × σ)))

def TableModel.dummy {σ Val : Type} : TableModel σ Val :=
  { rowEval := fun _ => none, derived := [] }

/-- The mutable state of `FileWriterEnv` plus `State::sub_row_num`:
`es` is the external evaluator state, `visited` and `actualRows` the two
per-table vectors, `output` the emitted formatter events. -/
structure WState (σ Val : Type) where
  subRowNum : Nat
  es : σ
  visited : List Bool
  actualRows : List Nat
  output : List (Nat × OutEvent Val)

/-- The events of the column loop of `write_one_row`: a value separator
before every column except the first, then the value. -/
def valueEvents {Val : Type} (i : Nat) (vals : List Val) :
    List (Nat × OutEvent Val) :=
  match vals with
  | [] => []
  | v :: rest =>
    (i, OutEvent.value v) ::
      rest.flatMap fun w => [(i, OutEvent.valueSep), (i, OutEvent.value w)]

/-- The continuations of the recursive `write_one_row`: a row of table
`i`; the remaining derived edges of a table; the remaining iterations of
the `for r in 1..=count` child loop. -/
inductive WTask (σ : Type) where
  | row (i : Nat)
  | edges (es : List (Nat × (σ → Option (Nat × σ))))
  | childRows (child : Nat) (r : Nat) (remaining : Nat)

/-- One step of `FileWriterEnv::write_one_row` and its recursion,
fuelled (the Rust recursion terminates only for acyclic templates; fuel
exhaustion reports failure).  The `Bool` is `true` on success, `false`
when an evaluation failed (the `?` operator) or fuel ran out; the state
carries everything already emitted, as the Rust file writes do. -/
def writeStep {σ Val : Type} (tables : List (TableModel σ Val)) :
    Nat → WTask σ → WState σ Val → WState σ Val × Bool
  | 0, _, st => (st, false)
  | fuel + 1, .row i, st =>
    let tbl := tables.getD i .dummy
    let ev : OutEvent Val :=
      if st.subRowNum = 1 ∧ st.actualRows.getD i 0 = 0 then .header else .rowSep
    let st1 := { st with output := st.output ++ [(i, ev)] }
    match tbl.rowEval st1.es with
    | none => (st1, false)
    | some (vals, es2) =>
      let st2 := { st1 with
        es := es2
        actualRows := st1.actualRows.set i (st1.actualRows.getD i 0 + 1)
        output := st1.output ++ valueEvents i vals }
      writeStep tables fuel (.edges tbl.derived) st2
  | _ + 1, .edges [], st => (st, true)
  | fuel + 1, .edges ((child, countEval) :: rest), st =>
    match countEval st.es with
    | none => (st, false)
    | some (count, es2) =>
      let st1 := { st with es := es2, visited := st.visited.set child true }
      match writeStep tables fuel (.childRows child 1 count) st1 with
      | (st2, true) => writeStep tables fuel (.edges rest) st2
      | (st2, false) => (st2, false)
  | _ + 1, .childRows _ _ 0, st => (st, true)
  | fuel + 1, .childRows child r (rem + 1), st =>
    match writeStep tables fuel (.row child) { st with subRowNum := r } with
    | (st2, true) => writeStep tables fuel (.childRows child (r + 1) rem) st2
    | (st2, false) => (st2, false)

/-- `FileWriterEnv::write_one_row(i)`. -/
def writeOneRow {σ Val : Type} (tables : List (TableModel σ Val))
    (fuel : Nat) (i : Nat) (st : WState σ Val) : WState σ Val × Bool :=
  writeStep tables fuel (.row i) st

/-! ## Helper lemmas about the 65-bit encoding -/

lemma toInt128_mk_halves (v : Int) :
    (I65.mk (decide (v % 2 = 1)) (v / 2)).toInt128 = v := by
  by_cases h : v % 2 = 1 <;> simp [I65.toInt128, h] <;> omega

lemma wf_mk_halves (v : Int) (h : inRange65 v) :
    (I65.mk (decide (v % 2 = 1)) (v / 2)).Wf := by
  obtain ⟨h1, h2⟩ := h
  constructor <;> simp only [] <;> omega

lemma checked_bind_tryFrom_of_inRange (v : Int) (h : inRange65 v) :
    (checkedI128 v).bind I65.tryFromI128 =
      some (I65.mk (decide (v % 2 = 1)) (v / 2)) := by
  obtain ⟨h1, h2⟩ := h
  have hc : checkedI128 v = some v := by
    unfold checkedI128
    rw [if_pos]
    constructor <;> omega
  rw [hc, Option.some_bind]
  unfold I65.tryFromI128
  rw [if_pos]
  constructor <;> omega

lemma checked_bind_tryFrom_of_notInRange (v : Int) (h : ¬ inRange65 v) :
    (checkedI128 v).bind I65.tryFromI128 = none := by
  unfold inRange65 at h
  unfold checkedI128
  split
  · rename_i hin
    rw [Option.some_bind]
    unfold I65.tryFromI128
    rw [if_neg]
    intro ⟨h1, h2⟩
    exact h ⟨by omega, by omega⟩
  · rfl

/-- Behaviour of one `impl_number_bin_op` instance on two `Int` operands,
given that its checked `i128` operation computes the exact value `e`. -/
lemma numberBinOp_int_spec {F : Type} (i65f : I65 → F) (fop : F → F → F)
    (checked : Int → Int → Option Int) (x y : I65) (e : Int)
    (hch : checked x.toInt128 y.toInt128 = checkedI128 e) :
    (inRange65 e →
      ∃ c, numberBinOp i65f fop checked (.int x) (.int y) = .int c ∧
        c.toInt128 = e ∧ c.Wf) ∧
    (¬ inRange65 e →
      numberBinOp i65f fop checked (.int x) (.int y) =
        .float (fop (i65f x) (i65f y))) := by
  constructor
  · intro hin
    refine ⟨I65.mk (decide (e % 2 = 1)) (e / 2), ?_, toInt128_mk_halves e,
      wf_mk_halves e hin⟩
    simp only [numberBinOp, hch, checked_bind_tryFrom_of_inRange e hin]
  · intro hout
    simp only [numberBinOp, hch, checked_bind_tryFrom_of_notInRange e hout,
      N.toFloat]

/-- Claim C1: for two `Int` operands each of addition, subtraction and
multiplication computes the exact 128-bit result; the result is `Int`
with that exact value if and only if the exact value lies in
`[-2^64, 2^64)`, and otherwise the result is `Float`, equal to the
corresponding `f64` operation applied to the `f64` projections of the
two operands.  Mixed `Int`/`Float` or `Float`/`Float` operands always
compute in float. -/
theorem number_int_arith_exact65 {F : Type} (i65f : I65 → F)
    (fadd fsub fmul : F → F → F) (x y : I65) :
    ((inRange65 (x.toInt128 + y.toInt128) →
        ∃ c, numberAdd i65f fadd (.int x) (.int y) = .int c ∧
          c.toInt128 = x.toInt128 + y.toInt128 ∧ c.Wf) ∧
      (¬ inRange65 (x.toInt128 + y.toInt128) →
        numberAdd i65f fadd (.int x) (.int y) =
          .float (fadd (i65f x) (i65f y)))) ∧
    ((inRange65 (x.toInt128 - y.toInt128) →
        ∃ c, numberSub i65f fsub (.int x) (.int y) = .int c ∧
          c.toInt128 = x.toInt128 - y.toInt128 ∧ c.Wf) ∧
      (¬ inRange65 (x.toInt128 - y.toInt128) →
        numberSub i65f fsub (.int x) (.int y) =
          .float (fsub (i65f x) (i65f y)))) ∧
    ((inRange65 (x.toInt128 * y.toInt128) →
        ∃ c, numberMul i65f fmul (.int x) (.int y) = .int c ∧
          c.toInt128 = x.toInt128 * y.toInt128 ∧ c.Wf) ∧
      (¬ inRange65 (x.toInt128 * y.toInt128) →
        numberMul i65f fmul (.int x) (.int y) =
          .float (fmul (i65f x) (i65f y)))) ∧
    (∀ a b : N F, ¬(a.isInt = true ∧ b.isInt = true) →
      numberAdd i65f fadd a b = .float (fadd (a.toFloat i65f) (b.toFloat i65f)) ∧
      numberSub i65f fsub a b = .float (fsub (a.toFloat i65f) (b.toFloat i65f)) ∧
      numberMul i65f fmul a b = .float (fmul (a.toFloat i65f) (b.toFloat i65f))) := by
  refine ⟨numberBinOp_int_spec i65f fadd checkedAdd x y _ rfl,
    numberBinOp_int_spec i65f fsub checkedSub x y _ rfl,
    numberBinOp_int_spec i65f fmul checkedMul x y _ rfl, ?_⟩
  intro a b hmix
  cases a with
  | int xa =>
    cases b with
    | int xb => exact absurd ⟨rfl, rfl⟩ hmix
    | float xb => exact ⟨rfl, rfl, rfl⟩
  | float xa => cases b <;> exact ⟨rfl, rfl, rfl⟩

theorem number_int_arith_exact65_witness :
    inRange65 ((I65.mk false 1).toInt128 + (I65.mk false 2).toInt128) ∧
      ∃ c, numberAdd (fun _ : I65 => ()) (fun _ _ => ())
          (.int (I65.mk false 1)) (.int (I65.mk false 2)) = .int c ∧
        c.toInt128 = (I65.mk false 1).toInt128 + (I65.mk false 2).toInt128 ∧
        c.Wf :=
  ⟨by decide,
    (number_int_arith_exact65 (fun _ : I65 => ()) (fun _ _ => ())
        (fun _ _ => ()) (fun _ _ => ()) (I65.mk false 1)
        (I65.mk false 2)).1.1 (by decide)⟩

/-- Claim C3: for every `Number` whose variant is `Int` with integer value
`v` (necessarily in `[-2^64, 2^64)` for a well-formed representation),
`to::<i128>()` returns exactly `v`; and constructing a `Number` from any
`u64` or `i64` value `x` and converting back yields `x`. -/
theorem number_to_i128_roundtrip {F : Type} (fto : F → Option Int) :
    (∀ v : I65, numberToI128 fto (.int v) = some v.toInt128) ∧
    (∀ v : I65, v.Wf → inRange65 v.toInt128) ∧
    (∀ n : Nat, n < 2 ^ 64 →
      numberToI128 fto (.int (i65OfU64 n)) = some (n : Int)) ∧
    (∀ n : Int, -(2 ^ 63) ≤ n → n < 2 ^ 63 →
      numberToI128 fto (.int (i65OfI64 n)) = some n) := by
  refine ⟨fun v => rfl, ?_, ?_, ?_⟩
  · intro v ⟨h1, h2⟩
    unfold I65.toInt128 inRange65
    constructor <;> split <;> omega
  · intro n hn
    show some (i65OfU64 n).toInt128 = some (n : Int)
    unfold i65OfU64 I65.toInt128
    by_cases h : n % 2 = 1 <;> simp [h] <;> omega
  · intro n h1 h2
    show some (i65OfI64 n).toInt128 = some n
    unfold i65OfI64 I65.toInt128
    by_cases h : n % 2 = 1 <;> simp [h] <;> omega

theorem number_to_i128_roundtrip_witness :
    numberToI128 (fun _ : Unit => none) (.int (i65OfU64 7)) = some (7 : Int) :=
  (number_to_i128_roundtrip (fun _ : Unit => none)).2.2.1 7 (by decide)

/-- Claim C8: negation of an `Int` `Number` is always `Int`, keeps
`lsbit`, sets `msb` to the two's-complement wrapping of `-(msb + lsbit)`,
and the resulting value is the negation of the original value under
65-bit two's-complement wrap. -/
theorem number_neg_int_wrapping {F : Type} (fneg : F → F) (x : I65)
    (h : x.Wf) :
    numberNeg fneg (.int x) = .int x.wrappingNeg ∧
    x.wrappingNeg.lsbit = x.lsbit ∧
    x.wrappingNeg.msb = wrap64 (-(wrap64 ((if x.lsbit then 1 else 0) + x.msb))) ∧
    x.wrappingNeg.Wf ∧
    x.wrappingNeg.toInt128 = wrap65 (-(x.toInt128)) := by
  obtain ⟨h1, h2⟩ := h
  refine ⟨rfl, rfl, rfl, ?_, ?_⟩
  · unfold I65.Wf I65.wrappingNeg wrap64
    constructor <;> simp only [] <;> omega
  · rcases x with ⟨l, m⟩
    unfold I65.wrappingNeg I65.toInt128 wrap64 wrap65
    cases l <;> simp <;> omega

theorem number_neg_int_wrapping_witness :
    I65.Wf (I65.mk true 5) ∧
      (numberNeg (fun u : Unit => u) (.int (I65.mk true 5)) =
          .int (I65.mk true 5).wrappingNeg ∧
        (I65.mk true 5).wrappingNeg.lsbit = (I65.mk true 5).lsbit ∧
        (I65.mk true 5).wrappingNeg.msb =
          wrap64 (-(wrap64 ((if (I65.mk true 5).lsbit then 1 else 0) +
            (I65.mk true 5).msb))) ∧
        (I65.mk true 5).wrappingNeg.Wf ∧
        (I65.mk true 5).wrappingNeg.toInt128 =
          wrap65 (-((I65.mk true 5).toInt128))) :=
  ⟨by decide, number_neg_int_wrapping (fun u : Unit => u) (I65.mk true 5)
    (by decide)⟩

/-! ## Helper lemmas about hex digits and escaping -/

lemma unhexU_hexDigitU (d : Nat) (h : d < 16) : unhexU (hexDigitU d) = d := by
  unfold unhexU hexDigitU
  split_ifs <;> omega

lemma isUpperHexByte_hexDigitU (d : Nat) (h : d < 16) :
    isUpperHexByte (hexDigitU d) := by
  unfold isUpperHexByte hexDigitU
  split_ifs <;> omega

/-- Claim C4: `write_sql` renders `Null` as the bytes `NULL`; renders
`String(s)` as a quote, then `s` with every `'` byte doubled and no other
byte transformed, then a quote; and renders `Bytes(b)` as `x'` followed
by two uppercase hex digits per byte (no other bytes), then `'`.
Byte 39 is `'`, 78/85/76 are `N`/`U`/`L`, 120 is `x`. -/
theorem write_sql_rendering {F : Type} (fshow : F → List Nat) :
    writeSql fshow (Value.null : Value F) = [78, 85, 76, 76] ∧
    (∀ s, writeSql fshow (Value.str s : Value F) =
      [39] ++ sqlEscapeBytes s ++ [39]) ∧
    sqlEscapeBytes [] = [] ∧
    (∀ b s, b ≠ 39 → sqlEscapeBytes (b :: s) = b :: sqlEscapeBytes s) ∧
    (∀ s, sqlEscapeBytes (39 :: s) = 39 :: 39 :: sqlEscapeBytes s) ∧
    (∀ bs, writeSql fshow (Value.bytes bs : Value F) =
      [120, 39] ++ bs.flatMap hexByte ++ [39]) ∧
    (∀ b, b < 256 → (hexByte b).length = 2 ∧ hexDecodePair (hexByte b) = b ∧
      ∀ d ∈ hexByte b, isUpperHexByte d) := by
  refine ⟨rfl, fun s => rfl, rfl, ?_, ?_, fun bs => rfl, ?_⟩
  · intro b s hb
    simp [sqlEscapeBytes, hb]
  · intro s
    simp [sqlEscapeBytes]
  · intro b hb
    have h1 : b / 16 < 16 := by omega
    have h2 : b % 16 < 16 := by omega
    refine ⟨rfl, ?_, ?_⟩
    · show unhexU (hexDigitU (b / 16)) * 16 + unhexU (hexDigitU (b % 16)) = b
      rw [unhexU_hexDigitU _ h1, unhexU_hexDigitU _ h2]
      omega
    · intro d hd
      simp only [hexByte, List.mem_cons, List.not_mem_nil, or_false] at hd
      rcases hd with rfl | rfl
      · exact isUpperHexByte_hexDigitU _ h1
      · exact isUpperHexByte_hexDigitU _ h2

theorem write_sql_rendering_witness :
    sqlEscapeBytes (79 :: [39]) = 79 :: sqlEscapeBytes [39] ∧
      (hexByte 222).length = 2 ∧ hexDecodePair (hexByte 222) = 222 ∧
      (∀ d ∈ hexByte 222, isUpperHexByte d) :=
  ⟨(write_sql_rendering (fun _ : Unit => [])).2.2.2.1 79 [39] (by decide),
    (write_sql_rendering (fun _ : Unit => [])).2.2.2.2.2.2 222 (by decide)⟩

/-- Claim C5: `sql_cmp` returns the absent ordering (not an error)
whenever either side is `Null`; orders `Number`/`Number` by the `Number`
ordering, `String`/`String` by byte-wise collation, `String`/`Bytes` and
`Bytes`/`String` by comparing the string's bytes against the bytes; and
fails with `InvalidArguments(tag, "comparing values of different types")`
on every remaining cross-type combination. -/
theorem sql_cmp_cases {F : Type} (i65f : I65 → F)
    (fcmp : F → F → Option Ordering) (tag : String) :
    (∀ x : Value F, sqlCmp i65f fcmp .null x tag = .ok none) ∧
    (∀ x : Value F, sqlCmp i65f fcmp x .null tag = .ok none) ∧
    (∀ a b : N F, sqlCmp i65f fcmp (.num a) (.num b) tag =
      .ok (numberCmpOpt i65f fcmp a b)) ∧
    (∀ s t, sqlCmp i65f fcmp (.str s : Value F) (.str t) tag =
      .ok (some (compareBytes s t))) ∧
    (∀ s t, sqlCmp i65f fcmp (.str s : Value F) (.bytes t) tag =
      .ok (some (compareBytes s t))) ∧
    (∀ s t, sqlCmp i65f fcmp (.bytes s : Value F) (.str t) tag =
      .ok (some (compareBytes s t))) ∧
    (∀ a s, sqlCmp i65f fcmp (.num a) (.str s) tag =
      .error (.invalidArguments tag "comparing values of different types")) ∧
    (∀ a s, sqlCmp i65f fcmp (.num a) (.bytes s) tag =
      .error (.invalidArguments tag "comparing values of different types")) ∧
    (∀ a s, sqlCmp i65f fcmp (.str s) (.num a) tag =
      .error (.invalidArguments tag "comparing values of different types")) ∧
    (∀ a s, sqlCmp i65f fcmp (.bytes s) (.num a) tag =
      .error (.invalidArguments tag "comparing values of different types")) := by
  refine ⟨?_, ?_, fun a b => rfl, fun s t => rfl, fun s t => rfl,
    fun s t => rfl, fun a s => rfl, fun a s => rfl, fun a s => rfl,
    fun a s => rfl⟩
  · intro x
    cases x <;> rfl
  · intro x
    cases x <;> rfl

/-! ## Byte-sequence comparison is the lexicographic order -/

lemma compareBytes_cons (a b : Nat) (as' bs' : List Nat) :
    compareBytes (a :: as') (b :: bs') =
      if a < b then .lt else if a = b then compareBytes as' bs' else .gt := by
  simp only [compareBytes]
  unfold cmpNat
  split_ifs <;> rfl

theorem compareBytes_eq_iff : ∀ a b : List Nat,
    compareBytes a b = Ordering.eq ↔ a = b
  | [], [] => by simp [compareBytes]
  | [], _ :: _ => by simp [compareBytes]
  | _ :: _, [] => by simp [compareBytes]
  | a :: as', b :: bs' => by
    have ih := compareBytes_eq_iff as' bs'
    rw [compareBytes_cons]
    split_ifs with h1 h2
    · constructor
      · intro hh
        exact absurd hh (by decide)
      · intro hh
        injection hh with hab _
        omega
    · subst h2
      rw [ih]
      simp
    · constructor
      · intro hh
        exact absurd hh (by decide)
      · intro hh
        injection hh with hab _
        omega

theorem compareBytes_lt_iff : ∀ a b : List Nat,
    compareBytes a b = Ordering.lt ↔ List.Lex (· < ·) a b
  | [], [] => ⟨(fun h => nomatch h), (fun hl => nomatch hl)⟩
  | [], _ :: _ => ⟨fun _ => List.Lex.nil, fun _ => rfl⟩
  | _ :: _, [] => ⟨(fun h => nomatch h), (fun hl => nomatch hl)⟩
  | a :: as', b :: bs' => by
    have ih := compareBytes_lt_iff as' bs'
    rw [compareBytes_cons]
    split_ifs with h1 h2
    · exact ⟨fun _ => List.Lex.rel h1, fun _ => rfl⟩
    · subst h2
      rw [ih]
      constructor
      · exact List.Lex.cons
      · intro hl
        cases hl with
        | cons h' => exact h'
        | rel hr => omega
    · constructor
      · intro hh
        exact absurd hh (by decide)
      · intro hl
        cases hl with
        | cons h' => omega
        | rel hr => omega

theorem compareBytes_swap : ∀ a b : List Nat,
    compareBytes b a = (compareBytes a b).swap
  | [], [] => rfl
  | [], _ :: _ => rfl
  | _ :: _, [] => rfl
  | a :: as', b :: bs' => by
    have ih := compareBytes_swap as' bs'
    rw [compareBytes_cons, compareBytes_cons]
    split_ifs with h1 h2 h3 h4 h5 h6 <;>
      first
        | omega
        | exact ih
        | rfl

/-- Claim C10: `sql_cmp` on two `Bytes` values never errors: it returns
the byte-wise lexicographic ordering of the two byte sequences (`.lt`
exactly on lexicographically-less, `.eq` exactly on equality). -/
theorem sql_cmp_bytes_total {F : Type} (i65f : I65 → F)
    (fcmp : F → F → Option Ordering) (tag : String) (a b : List Nat) :
    sqlCmp i65f fcmp (.bytes a) (.bytes b) tag =
      .ok (some (compareBytes a b)) ∧
    (compareBytes a b = .eq ↔ a = b) ∧
    (compareBytes a b = .lt ↔ List.Lex (· < ·) a b) ∧
    (compareBytes a b = .gt ↔ List.Lex (· < ·) b a) := by
  refine ⟨rfl, compareBytes_eq_iff a b, compareBytes_lt_iff a b, ?_⟩
  rw [← compareBytes_lt_iff b a, compareBytes_swap a b]
  cases compareBytes a b <;> simp [Ordering.swap]

/-! ## `try_sql_concat` -/

/-- The concatenated buffer produced by a sequence of non-null values. -/
def concatBuffer {F : Type} (fshow : F → List Nat) : List (Value F) → List Nat
  | [] => []
  | v :: rest => valueConcatBytes fshow v ++ concatBuffer fshow rest

lemma trySqlConcatAux_no_null {F : Type} (fshow : F → List Nat) :
    ∀ (vs : List (Value F)) (res : List Nat),
      (∀ v ∈ vs, v ≠ Value.null) →
      trySqlConcatAux fshow (vs.map Except.ok) res false =
        .ok (byteValueOf (res ++ concatBuffer fshow vs))
  | [], res, _ => by
    simp [trySqlConcatAux, concatBuffer]
  | v :: rest, res, h => by
    have hv : v ≠ Value.null := h v (List.mem_cons_self v rest)
    have hrest : ∀ w ∈ rest, w ≠ Value.null :=
      fun w hw => h w (List.mem_cons_of_mem v hw)
    cases v with
    | null => exact absurd rfl hv
    | num n =>
      show trySqlConcatAux fshow (rest.map Except.ok)
          (res ++ numberDisplay fshow n) false = _
      rw [trySqlConcatAux_no_null fshow rest _ hrest]
      simp [concatBuffer, valueConcatBytes]
    | str s =>
      show trySqlConcatAux fshow (rest.map Except.ok) (res ++ s) false = _
      rw [trySqlConcatAux_no_null fshow rest _ hrest]
      simp [concatBuffer, valueConcatBytes]
    | bytes b =>
      show trySqlConcatAux fshow (rest.map Except.ok) (res ++ b) false = _
      rw [trySqlConcatAux_no_null fshow rest _ hrest]
      simp [concatBuffer, valueConcatBytes]

/-- Claim C6 (counterexample): two `Bytes` inputs — each individually
invalid UTF-8, hence legitimate `Bytes` values — whose concatenation is
valid UTF-8.  `try_sql_concat` returns a `String` result even though a
`Bytes` input appears, because the `is_utf8` flag is never set to `true`
and the final buffer goes through the `Vec<u8> → Value` conversion. -/
theorem try_sql_concat_bytes_gives_string :
    trySqlConcat (fun _ : Unit => ([] : List Nat))
        [Except.ok (Value.bytes [195]), Except.ok (Value.bytes [169])] =
      .ok (Value.str [195, 169]) ∧
    validUtf8 [195] = false ∧
    validUtf8 [169] = false ∧
    Value.isBytes (Value.str [195, 169] : Value Unit) = false :=
  ⟨rfl, rfl, rfl, rfl⟩

/-- Claim C6 (amended): for every sequence of non-`Null` inputs the
result of `try_sql_concat` is the buffer concatenating the inputs' bytes,
upgraded to `String` exactly when that buffer is valid UTF-8 — whether or
not a `Bytes` input appears. -/
theorem try_sql_concat_utf8 {F : Type} (fshow : F → List Nat)
    (vs : List (Value F)) (h : ∀ v ∈ vs, v ≠ Value.null) :
    trySqlConcat fshow (vs.map Except.ok) =
      .ok (byteValueOf (concatBuffer fshow vs)) ∧
    (∀ l : List Nat, (byteValueOf l : Value F).isStr = validUtf8 l) := by
  constructor
  · have := trySqlConcatAux_no_null fshow vs [] h
    simpa [trySqlConcat] using this
  · intro l
    unfold byteValueOf
    split <;> simp_all [Value.isStr]

theorem try_sql_concat_utf8_witness :
    trySqlConcat (fun _ : Unit => ([] : List Nat))
        ([Value.str [104, 105], Value.num (.int (I65.mk false 2))].map
          Except.ok) =
      .ok (byteValueOf (concatBuffer (fun _ : Unit => ([] : List Nat))
        [Value.str [104, 105], Value.num (.int (I65.mk false 2))])) ∧
    (∀ l : List Nat,
      (byteValueOf l : Value Unit).isStr = validUtf8 l) :=
  try_sql_concat_utf8 (fun _ : Unit => ([] : List Nat))
    [Value.str [104, 105], Value.num (.int (I65.mk false 2))] (by decide)

/-! ## Seed parsing -/

theorem hexPairsDecode_length : ∀ s : List Char,
    (hexPairsDecode s).length = s.length / 2
  | [] => by simp [hexPairsDecode]
  | [_] => by simp [hexPairsDecode]
  | c1 :: c2 :: rest => by
    have ih := hexPairsDecode_length rest
    show (hexPairsDecode rest).length + 1 = (rest.length + 1 + 1) / 2
    omega

/-- Claim C9 (counterexample): a string of 64 *uppercase* hex characters
is not 64 lowercase hex characters, yet `seed_from_str` succeeds on it —
`HEXLOWER_PERMISSIVE` accepts both cases. -/
theorem seed_from_str_uppercase_ok :
    seedFromStr (List.replicate 64 'A') = .ok (List.replicate 32 170) ∧
    (List.replicate 64 'A').all isLowerHexChar = false :=
  ⟨rfl, rfl⟩

/-- Claim C9 (amended): `seed_from_str` succeeds, producing the 32-byte
seed, exactly when the input is 64 hexadecimal characters (lowercase or
uppercase), and returns a decode error otherwise. -/
theorem seed_from_str_spec (s : List Char) :
    ((∃ bytes, seedFromStr s = .ok bytes) ↔
      s.length = 64 ∧ s.all isHexDigitPermissive = true) ∧
    (s.length = 64 → s.all isHexDigitPermissive = true →
      seedFromStr s = .ok (hexPairsDecode s) ∧
        (hexPairsDecode s).length = 32) ∧
    (¬(s.length = 64 ∧ s.all isHexDigitPermissive = true) →
      ∃ k, seedFromStr s = .error k) := by
  have main : s.length = 64 → s.all isHexDigitPermissive = true →
      seedFromStr s = .ok (hexPairsDecode s) ∧
        (hexPairsDecode s).length = 32 := by
    intro h64 hall
    refine ⟨?_, by rw [hexPairsDecode_length s, h64]⟩
    unfold seedFromStr
    rw [h64]
    simp [hall]
  refine ⟨⟨?_, fun ⟨h64, hall⟩ => ⟨_, (main h64 hall).1⟩⟩, main, ?_⟩
  · rintro ⟨bytes, hb⟩
    unfold seedFromStr at hb
    split_ifs at hb with h1 h2 h3
    exact ⟨by omega, h3⟩
  · intro hng
    unfold seedFromStr
    split_ifs with h1 h2 h3
    · exact ⟨.length, rfl⟩
    · exact ⟨.length, rfl⟩
    · exact absurd ⟨by omega, h3⟩ hng
    · exact ⟨.symbol, rfl⟩

theorem seed_from_str_spec_witness :
    seedFromStr (List.replicate 64 'a') =
      .ok (hexPairsDecode (List.replicate 64 'a')) ∧
    (hexPairsDecode (List.replicate 64 'a')).length = 32 :=
  (seed_from_str_spec (List.replicate 64 'a')).2.1 (by decide) (by decide)

/-! ## Row counting across shards -/

lemma map_sum_const {α : Type} (f : α → Nat) (a : Nat) : ∀ (l : List α),
    (∀ x ∈ l, f x = a) → (l.map f).sum = l.length * a
  | [], _ => by simp
  | x :: xs, h => by
    have ih := map_sum_const f a xs fun y hy => h y (List.mem_cons_of_mem x hy)
    simp only [List.map_cons, List.sum_cons, List.length_cons, ih,
      h x (List.mem_cons_self x xs)]
    ring

lemma shardMainRows_std (rc idx ic : Nat) :
    shardMainRows rc ⟨idx, ic, rc⟩ = ic * rc := by
  unfold shardMainRows
  rw [map_sum_const _ rc _ ?_, List.length_range]
  intro i _
  unfold insertRows
  split <;> rfl

lemma shardMainRows_last (rc idx lfic lirc : Nat) (h : 1 ≤ lfic) :
    shardMainRows rc ⟨idx, lfic, lirc⟩ = (lfic - 1) * rc + lirc := by
  obtain ⟨m, rfl⟩ : ∃ m, lfic = m + 1 := ⟨lfic - 1, by omega⟩
  unfold shardMainRows
  rw [List.range_succ, List.map_append, List.sum_append]
  have h1 : ((List.range m).map (insertRows rc ⟨idx, m + 1, lirc⟩)).sum =
      m * rc := by
    rw [map_sum_const _ rc _ ?_, List.length_range]
    intro i hi
    have : i < m := List.mem_range.mp hi
    unfold insertRows
    rw [if_neg (by simp only []; omega)]
  have h2 : insertRows rc ⟨idx, m + 1, lirc⟩ m = lirc := by
    unfold insertRows
    rw [if_pos (by simp only []; omega)]
  simp [h1, h2]

lemma foldl_modAdd_map {α : Type} (f : α → Nat) : ∀ (l : List α) (s : Nat),
    s < 2 ^ 64 →
    l.foldl (fun acc x => (acc + f x) % 2 ^ 64) s =
      (s + (l.map f).sum) % 2 ^ 64
  | [], s, hs => by
    simp only [List.foldl_nil, List.map_nil, List.sum_nil, Nat.add_zero]
    omega
  | x :: xs, s, hs => by
    have ih := foldl_modAdd_map f xs ((s + f x) % 2 ^ 64)
      (Nat.mod_lt _ (by norm_num))
    simp only [List.foldl_cons, List.map_cons, List.sum_cons, ih,
      Nat.mod_add_mod]
    rw [Nat.add_assoc]

lemma shardProgress_eq (rc : Nat) (info : FileInfo) (s : Nat)
    (hs : s < 2 ^ 64) :
    shardProgress rc info s = (s + shardMainRows rc info) % 2 ^ 64 := by
  unfold shardProgress shardMainRows
  exact foldl_modAdd_map _ _ _ hs

lemma foldl_shardProgress (rc : Nat) : ∀ (l : List FileInfo) (s : Nat),
    s < 2 ^ 64 →
    l.foldl (fun acc info => shardProgress rc info acc) s =
      (s + (l.map (shardMainRows rc)).sum) % 2 ^ 64
  | [], s, hs => by
    simp only [List.foldl_nil, List.map_nil, List.sum_nil, Nat.add_zero]
    omega
  | info :: rest, s, hs => by
    have h1 := shardProgress_eq rc info s hs
    have ih := foldl_shardProgress rc rest
      ((s + shardMainRows rc info) % 2 ^ 64) (Nat.mod_lt _ (by norm_num))
    simp only [List.foldl_cons, List.map_cons, List.sum_cons, h1, ih,
      Nat.mod_add_mod]
    rw [Nat.add_assoc]

lemma totalMainRows_eq (K ic rc lfic lirc : Nat) (hK : 1 ≤ K)
    (hl : 1 ≤ lfic) :
    totalMainRows K ic rc lfic lirc =
      (K - 1) * (ic * rc) + (lfic - 1) * rc + lirc := by
  obtain ⟨m, rfl⟩ : ∃ m, K = m + 1 := ⟨K - 1, by omega⟩
  unfold totalMainRows shardInfos
  rw [List.range_succ, List.map_append, List.map_append, List.sum_append,
    List.map_map, List.map_map]
  have h1 : ((List.range m).map
      ((shardMainRows rc) ∘ fun i =>
        if i + 1 = m + 1 then
          ({ fileIndex := i + 1, insertsCount := lfic,
             lastInsertRowsCount := lirc } : FileInfo)
        else
          { fileIndex := i + 1, insertsCount := ic,
            lastInsertRowsCount := rc })).sum = m * (ic * rc) := by
    rw [map_sum_const _ (ic * rc) _ ?_, List.length_range]
    intro i hi
    have : i < m := List.mem_range.mp hi
    simp only [Function.comp_apply]
    rw [if_neg (by omega)]
    exact shardMainRows_std rc (i + 1) ic
  rw [h1]
  simp only [List.map_cons, List.map_nil, List.sum_cons, List.sum_nil,
    Function.comp_apply, if_true, Nat.add_zero]
  rw [shardMainRows_last rc (m + 1) lfic lirc hl]
  simp only [Nat.add_sub_cancel]
  ring

lemma finalWriteProgress_eq (K ic rc lfic lirc : Nat) (hK : 1 ≤ K)
    (hl : 1 ≤ lfic) :
    finalWriteProgress K ic rc lfic lirc =
      ((K - 1) * (ic * rc) + (lfic - 1) * rc + lirc) % 2 ^ 64 := by
  unfold finalWriteProgress
  rw [foldl_shardProgress rc _ 0 (by norm_num), Nat.zero_add]
  have h := totalMainRows_eq K ic rc lfic lirc hK hl
  unfold totalMainRows at h
  rw [h]

/-- Claim C2 (counterexample): a configuration reachable from `u32`
arguments whose row total `2·(2^32-1)^2 + 1` exceeds `2^64`.  The number
of main rows written matches the formula, but `WRITE_PROGRESS` — a `u64`
updated with wrapping `fetch_add` — ends below `2^64` and so does not
equal the formula, refuting the claim's counter clause as stated. -/
theorem write_progress_wraps :
    totalMainRows 3 4294967295 4294967295 1 1 =
      (3 - 1) * (4294967295 * 4294967295) + (1 - 1) * 4294967295 + 1 ∧
    finalWriteProgress 3 4294967295 4294967295 1 1 ≠
      (3 - 1) * (4294967295 * 4294967295) + (1 - 1) * 4294967295 + 1 := by
  constructor
  · exact totalMainRows_eq 3 4294967295 4294967295 1 1 (by decide) (by decide)
  · rw [finalWriteProgress_eq 3 4294967295 4294967295 1 1 (by decide)
      (by decide)]
    decide

/-- Claim C2 (amended): for every configuration with at least one file
and at least one insert in the last file, the total number of main rows
written across all shards equals `(K-1)·inserts_count·rows_count +
(last_file_inserts_count-1)·rows_count + last_insert_rows_count`; the
`u64` counter `WRITE_PROGRESS` — bumped by the per-insert row count after
each insert, with wrapping `fetch_add` — ends at that total reduced
modulo `2^64`, hence equals the total whenever the total is below
`2^64`. -/
theorem total_rows_formula (K ic rc lfic lirc : Nat) (hK : 1 ≤ K)
    (hl : 1 ≤ lfic) :
    totalMainRows K ic rc lfic lirc =
      (K - 1) * (ic * rc) + (lfic - 1) * rc + lirc ∧
    finalWriteProgress K ic rc lfic lirc =
      ((K - 1) * (ic * rc) + (lfic - 1) * rc + lirc) % 2 ^ 64 ∧
    ((K - 1) * (ic * rc) + (lfic - 1) * rc + lirc < 2 ^ 64 →
      finalWriteProgress K ic rc lfic lirc =
        (K - 1) * (ic * rc) + (lfic - 1) * rc + lirc) := by
  refine ⟨totalMainRows_eq K ic rc lfic lirc hK hl,
    finalWriteProgress_eq K ic rc lfic lirc hK hl, fun hfit => ?_⟩
  rw [finalWriteProgress_eq K ic rc lfic lirc hK hl]
  exact Nat.mod_eq_of_lt hfit

theorem total_rows_formula_witness :
    totalMainRows 3 2 5 1 3 = (3 - 1) * (2 * 5) + (1 - 1) * 5 + 3 ∧
    finalWriteProgress 3 2 5 1 3 = (3 - 1) * (2 * 5) + (1 - 1) * 5 + 3 :=
  ⟨(total_rows_formula 3 2 5 1 3 (by decide) (by decide)).1,
    (total_rows_formula 3 2 5 1 3 (by decide) (by decide)).2.2 (by decide)⟩

/-! ## Header/separator decision in `write_one_row` -/

/-- Claim C7: in `write_one_row(i)`, when the row expression evaluates,
the event emitted to table `i`'s file before the row values is the format
header exactly when `sub_row_num = 1` and `actual_rows[i] = 0`, and the
row separator in every other case; `actual_rows[i]` is incremented by 1
for the row, and the remaining work is exactly the derived-edge recursion
from the updated state. -/
theorem write_one_row_header_sep {σ Val : Type}
    (tables : List (TableModel σ Val)) (fuel i : Nat) (st : WState σ Val)
    (vals : List Val) (es2 : σ)
    (h : (tables.getD i .dummy).rowEval st.es = some (vals, es2)) :
    ∃ stMid : WState σ Val,
      writeOneRow tables (fuel + 1) i st =
        writeStep tables fuel (.edges (tables.getD i .dummy).derived) stMid ∧
      stMid.output = st.output ++
        (i, if st.subRowNum = 1 ∧ st.actualRows.getD i 0 = 0 then
              OutEvent.header
            else OutEvent.rowSep) :: valueEvents i vals ∧
      stMid.actualRows = st.actualRows.set i (st.actualRows.getD i 0 + 1) ∧
      stMid.es = es2 ∧
      stMid.subRowNum = st.subRowNum ∧
      stMid.visited = st.visited := by
  have hstep : writeOneRow tables (fuel + 1) i st =
      writeStep tables fuel (.edges (tables.getD i .dummy).derived)
        { st with
          es := es2
          actualRows := st.actualRows.set i (st.actualRows.getD i 0 + 1)
          output := (st.output ++
            [(i, if st.subRowNum = 1 ∧ st.actualRows.getD i 0 = 0 then
                   OutEvent.header
                 else OutEvent.rowSep)]) ++ valueEvents i vals } := by
    unfold writeOneRow
    simp only [writeStep, h]
  exact ⟨_, hstep, by simp, rfl, rfl, rfl, rfl⟩

/-- Concrete single-table model used to exercise `write_one_row`. -/
def wTable0 : TableModel Unit Unit :=
  { rowEval := fun s => some ([], s), derived := [] }

/-- Concrete writer state: `sub_row_num = 1`, one table, no rows yet. -/
def wState0 : WState Unit Unit :=
  { subRowNum := 1, es := (), visited := [false], actualRows := [0],
    output := [] }

theorem write_one_row_header_sep_witness :
    ∃ stMid : WState Unit Unit,
      writeOneRow [wTable0] 1 0 wState0 =
        writeStep [wTable0] 0 (.edges ([wTable0].getD 0 .dummy).derived)
          stMid ∧
      stMid.output = wState0.output ++
        (0, if wState0.subRowNum = 1 ∧ wState0.actualRows.getD 0 0 = 0 then
              OutEvent.header
            else OutEvent.rowSep) :: valueEvents 0 ([] : List Unit) ∧
      stMid.actualRows =
        wState0.actualRows.set 0 (wState0.actualRows.getD 0 0 + 1) ∧
      stMid.es = () ∧
      stMid.subRowNum = wState0.subRowNum ∧
      stMid.visited = wState0.visited :=
  write_one_row_header_sep [wTable0] 0 0 wState0 [] () rfl

end Dbgen
